import Mathlib

/-!
Formal model of `html_nested_tables/base.py`.

The Python module builds HTML tables out of nested association lists.  We give
a shallow embedding of its data model and algorithms:

* `Raw` models the raw input: nested association lists (tuples of pairs) whose
  scalar leaves we take to be Python integers and whose keys are strings.
* `Dir` models the two direction tags: the classes `h = HorizontalTableDict`
  and `v = VerticalTableDict` (only their `direction` attribute matters).
* `TableDict` models a constructed table: an ordered dict each of whose values
  is either a scalar or a nested `TableDict`, with the node's direction.
* `Header` models the entries of the nested header lists built by
  `TableDict._get_headers`: either a bare key, or a `[key, child_headers]`
  pair.

Fallible Python code is modelled with `Option` (an uncaught exception during
table construction) and `Except Unit` (an uncaught exception while resolving
data cells).  Machine integers do not overflow in Python, so scalars are
`Int` and counts are `Nat`.
-/

inductive Dir where
  | horizontal : Dir
  | vertical : Dir
deriving DecidableEq, Repr

/-- Raw input data: nested association lists (`datadict` in the Python code).
A value is either a scalar (an integer) or a nested association list. -/
inductive Raw where
  | int : Int → Raw
  | node : List (String × Raw) → Raw

/-- A constructed table, as produced by `build_table_dict`: each node is an
ordered dict carrying the direction of the `TableDict` subclass it was wrapped
in (`h` or `v`), and each value is a scalar or a nested table. -/
inductive TableDict where
  | leaf : Int → TableDict
  | node : Dir → List (String × TableDict) → TableDict

/-- One entry of a nested header list, as built by `TableDict._get_headers`:
either a bare key (a leaf header) or a `[key, child_headers]` pair. -/
inductive Header where
  | leaf : String → Header
  | group : String → List Header → Header

mutual

/-- Structural equality of header entries, matching Python `==` on the mixed
string/list representation used by `_get_headers`. -/
def Header.beq : Header → Header → Bool
  | .leaf a, .leaf b => a == b
  | .group a ga, .group b gb => a == b && Header.beqList ga gb
  | _, _ => false

def Header.beqList : List Header → List Header → Bool
  | [], [] => true
  | x :: xs, y :: ys => Header.beq x y && Header.beqList xs ys
  | _, _ => false

end

instance : BEq Header := ⟨Header.beq⟩

mutual

theorem Header.beq_iff : ∀ a b : Header, Header.beq a b = true ↔ a = b
  | .leaf _, .leaf _ => by simp [Header.beq]
  | .leaf _, .group _ _ => by simp [Header.beq]
  | .group _ _, .leaf _ => by simp [Header.beq]
  | .group a ga, .group b gb => by
      simp [Header.beq, Header.beqList_iff ga gb]

theorem Header.beqList_iff : ∀ xs ys : List Header, Header.beqList xs ys = true ↔ xs = ys
  | [], [] => by simp [Header.beqList]
  | [], _ :: _ => by simp [Header.beqList]
  | _ :: _, [] => by simp [Header.beqList]
  | x :: xs, y :: ys => by
      simp [Header.beqList, Header.beq_iff x y, Header.beqList_iff xs ys]

end

instance : LawfulBEq Header where
  eq_of_beq h := (Header.beq_iff _ _).1 h
  rfl := (Header.beq_iff _ _).2 rfl

instance : DecidableEq Header := fun a b =>
  decidable_of_iff (Header.beq a b = true) (Header.beq_iff a b)

mutual

/-- Induction principle for the nested inductive `Raw`. -/
theorem Raw.rawInd {P : Raw → Prop} {Q : List (String × Raw) → Prop}
    (hint : ∀ n, P (.int n)) (hnode : ∀ items, Q items → P (.node items))
    (hnil : Q []) (hcons : ∀ k v rest, P v → Q rest → Q ((k, v) :: rest)) :
    ∀ r, P r
  | .int n => hint n
  | .node items => hnode items (Raw.rawIndList hint hnode hnil hcons items)

theorem Raw.rawIndList {P : Raw → Prop} {Q : List (String × Raw) → Prop}
    (hint : ∀ n, P (.int n)) (hnode : ∀ items, Q items → P (.node items))
    (hnil : Q []) (hcons : ∀ k v rest, P v → Q rest → Q ((k, v) :: rest)) :
    ∀ l, Q l
  | [] => hnil
  | (k, v) :: rest =>
      hcons k v rest (Raw.rawInd hint hnode hnil hcons v)
        (Raw.rawIndList hint hnode hnil hcons rest)

end

mutual

/-- Induction principle for the nested inductive `TableDict`. -/
theorem TableDict.tdInd {P : TableDict → Prop} {Q : List (String × TableDict) → Prop}
    (hleaf : ∀ n, P (.leaf n)) (hnode : ∀ d items, Q items → P (.node d items))
    (hnil : Q []) (hcons : ∀ k v rest, P v → Q rest → Q ((k, v) :: rest)) :
    ∀ t, P t
  | .leaf n => hleaf n
  | .node d items => hnode d items (TableDict.tdIndList hleaf hnode hnil hcons items)

theorem TableDict.tdIndList {P : TableDict → Prop} {Q : List (String × TableDict) → Prop}
    (hleaf : ∀ n, P (.leaf n)) (hnode : ∀ d items, Q items → P (.node d items))
    (hnil : Q []) (hcons : ∀ k v rest, P v → Q rest → Q ((k, v) :: rest)) :
    ∀ l, Q l
  | [] => hnil
  | (k, v) :: rest =>
      hcons k v rest (TableDict.tdInd hleaf hnode hnil hcons v)
        (TableDict.tdIndList hleaf hnode hnil hcons rest)

end

mutual

/-- Induction principle for the nested inductive `Header`. -/
theorem Header.hdrInd {P : Header → Prop} {Q : List Header → Prop}
    (hleaf : ∀ k, P (.leaf k)) (hgroup : ∀ k g, Q g → P (.group k g))
    (hnil : Q []) (hcons : ∀ h rest, P h → Q rest → Q (h :: rest)) :
    ∀ h, P h
  | .leaf k => hleaf k
  | .group k g => hgroup k g (Header.hdrIndList hleaf hgroup hnil hcons g)

theorem Header.hdrIndList {P : Header → Prop} {Q : List Header → Prop}
    (hleaf : ∀ k, P (.leaf k)) (hgroup : ∀ k g, Q g → P (.group k g))
    (hnil : Q []) (hcons : ∀ h rest, P h → Q rest → Q (h :: rest)) :
    ∀ l, Q l
  | [] => hnil
  | h :: rest =>
      hcons h rest (Header.hdrInd hleaf hgroup hnil hcons h)
        (Header.hdrIndList hleaf hgroup hnil hcons rest)

end

mutual

/-- Model of the inner `max_depth` helper of `TableDict._get_headers_depth`,
applied to a raw value.  A scalar (or a string key) is not a list, so Python
returns `False`, i.e. `0`; a tuple returns `max(map(max_depth, items)) + 1`,
where each item is a `(key, value)` pair of depth `max(0, max_depth(value)) + 1`.
Python's `max` raises on an empty sequence; the model returns `1` there, a case
never exercised by the theorems (well-formed nodes are nonempty). -/
def Raw.maxDepth : Raw → Nat
  | .int _ => 0
  | .node items => Raw.listMax items + 1

def Raw.listMax : List (String × Raw) → Nat
  | [] => 0
  | (_, v) :: rest => max (Raw.maxDepth v + 1) (Raw.listMax rest)

end

/-- Model of `TableDict._get_headers_depth(datadict)` as used by
`get_all_structures` on raw input data: `1` when the argument is falsy
(the integer `0` or an empty list), else `d - d // 2` for `d` the `max_depth`. -/
def Raw.headersDepth : Raw → Nat
  | .int n => if n = 0 then 1 else 0
  | .node items =>
      if items.isEmpty then 1
      else Raw.maxDepth (.node items) - Raw.maxDepth (.node items) / 2

mutual

/-- Well-formedness of raw input at nesting depth `d` (the shape the spec
calls a well-formed `(data, structure)` input): scalars live exactly at depth
`0`, every node is a nonempty association list of values of uniform depth
`d - 1`, and keys within one node are distinct (an `OrderedDict` cannot hold
duplicate keys). -/
def Raw.wf : Raw → Nat → Bool
  | .int _, d => d == 0
  | .node items, d =>
    match d with
    | 0 => false
    | k + 1 =>
        !items.isEmpty && (items.map Prod.fst).Nodup && Raw.wfItems items k

def Raw.wfItems : List (String × Raw) → Nat → Bool
  | [], _ => true
  | (_, v) :: rest, k => Raw.wf v k && Raw.wfItems rest k

end

instance : DecidablePred (fun l : List String => l.Nodup) := fun l =>
  List.nodupDecidable l

/-- Model of `itertools.product((v, h), repeat=n)`: all direction tuples of
length `n`, the last position varying fastest, `v` before `h`. -/
def dirProduct : Nat → List (List Dir)
  | 0 => [[]]
  | n + 1 =>
      (dirProduct n).flatMap (fun p => [p ++ [Dir.vertical], p ++ [Dir.horizontal]])

/-- Model of `get_all_structures(datadict)`. -/
def getAllStructures (datadict : Raw) : List (List Dir) :=
  dirProduct (Raw.headersDepth datadict)

mutual

/-- Model of the inner `apply_structure` of `build_table_dict`.  Python first
evaluates `structure[level](datadict)` — an uncaught `IndexError` when the
structure is exhausted, or an uncaught `TypeError` when `datadict` is a scalar
(then `level` is `0` and the root is a scalar, so either the indexing or the
`OrderedDict` construction raises) — and then replaces every tuple value by a
recursive application at `level + 1`.  Uncaught exceptions are `none`. -/
def applyStructure : Raw → List Dir → Nat → Option TableDict
  | .int _, _, _ => none
  | .node items, s, level =>
    match s.get? level with
    | none => none
    | some d => do
        let its ← applyItems items s level
        pure (.node d its)

def applyItems : List (String × Raw) → List Dir → Nat → Option (List (String × TableDict))
  | [], _, _ => some []
  | (k, v) :: rest, s, level => do
      let v' ←
        match v with
        | .int n => pure (TableDict.leaf n)
        | .node _ => applyStructure v s (level + 1)
      let rest' ← applyItems rest s level
      pure ((k, v') :: rest')

end

/-- Model of `build_table_dict(datadict, structure)`.  The returned table also
records `structure` on the root; the model keeps the structure alongside and
passes it explicitly to the functions that read `self.structure`. -/
def buildTableDict (datadict : Raw) (s : List Dir) : Option TableDict :=
  applyStructure datadict s 0

/-- Model of the last two lines of the loop body of `TableDict._get_headers`:
`if isinstance(self, DictClass) and k not in headers: headers.append(k)`.
A string key compares equal to a header entry exactly when that entry is the
bare key. -/
def leafStep (side dir : Dir) (k : String) (acc : List Header) : List Header :=
  if dir = side ∧ Header.leaf k ∉ acc then acc ++ [Header.leaf k] else acc

/-- Model of one step of the merge loop of `TableDict._get_headers`:
`for h in child_headers: if h not in headers: headers.append(h)`. -/
def mergeInto (acc ch : List Header) : List Header :=
  ch.foldl (fun a hh => if hh ∈ a then a else a ++ [hh]) acc

mutual

/-- Model of `TableDict._get_headers(self, side)`.  `side` selects the
`DictClass`, and `isinstance(self, DictClass)` is `dir = side`.  The method is
only ever invoked on `TableDict` instances; on a scalar the model returns `[]`
(the recursive calls in the loop body are guarded by
`isinstance(v, TableDict)`). -/
def TableDict.getHeaders (side : Dir) : TableDict → List Header
  | .leaf _ => []
  | .node dir items => headersAux side dir items []

/-- The `for k, v in self.items()` loop of `_get_headers`, with `acc` the
`headers` list accumulated so far.  A scalar value skips the
`isinstance(v, TableDict)` branch and goes to the final `if` of the loop body;
since a scalar's headers are `[]`, this is the same single `ch.isEmpty` test
(`getHeaders` of a scalar is `[]`): a nonempty child header list is appended
as a `[k, child_headers]` group when `isinstance(self, DictClass)`, merged
with deduplication otherwise, and the `continue` skips the final `if`. -/
def headersAux (side dir : Dir) : List (String × TableDict) → List Header → List Header
  | [], acc => acc
  | (k, val) :: rest, acc =>
      headersAux side dir rest
        (if (TableDict.getHeaders side val).isEmpty then leafStep side dir k acc
         else if dir = side then acc ++ [Header.group k (TableDict.getHeaders side val)]
         else mergeInto acc (TableDict.getHeaders side val))

end

/-- Model of `self.horizontal_headers()`. -/
def TableDict.horizontalHeaders (t : TableDict) : List Header :=
  TableDict.getHeaders .horizontal t

/-- Model of `self.vertical_headers()`. -/
def TableDict.verticalHeaders (t : TableDict) : List Header :=
  TableDict.getHeaders .vertical t

mutual

/-- Model of `TableDict._get_final_length(l)`: the total number of leaf
headers of a nested header list. -/
def Header.finalLength : List Header → Nat
  | [] => 0
  | h :: rest => Header.finalOne h + Header.finalLength rest

def Header.finalOne : Header → Nat
  | .leaf _ => 1
  | .group _ g => Header.finalLength g

end

mutual

/-- Depth contributed by one header entry to the inner `max_depth` helper of
`TableDict._get_headers_depth`: a bare key is not a list (`False`, i.e. `0`);
a `[key, child_headers]` pair has depth `max(0, max_depth(child)) + 1`. -/
def Header.entryDepth : Header → Nat
  | .leaf _ => 0
  | .group _ g => (Header.listMax g + 1) + 1

def Header.listMax : List Header → Nat
  | [] => 0
  | h :: rest => max (Header.entryDepth h) (Header.listMax rest)

end

/-- Model of `TableDict._get_headers_depth(headers)` on a header list:
`1` for an empty list, else `d - d // 2` where `d = max_depth(headers)`.
Python's `max` raises on an empty nested list; header groups produced by
`_get_headers` are never empty, so the model's `0` there is unexercised. -/
def Header.headersDepth (hs : List Header) : Nat :=
  if hs.isEmpty then 1
  else (Header.listMax hs + 1) - (Header.listMax hs + 1) / 2

mutual

/-- Model of `TableDict._accessors_iterator(headers, parent_accessors)` on a
single entry: a group is flattened into parent-then-child key sequences, a
bare key yields `parent_accessors + (key,)`. -/
def Header.accessorsOne : Header → List String → List (List String)
  | .leaf k, parents => [parents ++ [k]]
  | .group k g, parents => Header.accessorsList g (parents ++ [k])

def Header.accessorsList : List Header → List String → List (List String)
  | [], _ => []
  | h :: rest, parents => Header.accessorsOne h parents ++ Header.accessorsList rest parents

end

/-- Model of `list(self._accessors_iterator(self.horizontal_headers()))`. -/
def TableDict.horizontalAccessors (t : TableDict) : List (List String) :=
  Header.accessorsList (t.horizontalHeaders) []

/-- Model of `list(self._accessors_iterator(self.vertical_headers()))`. -/
def TableDict.verticalAccessors (t : TableDict) : List (List String) :=
  Header.accessorsList (t.verticalHeaders) []

/-- Model of the Python subscript `v[accessor]` inside `inner_generator`:
`KeyError` on a missing key and `TypeError` on a scalar are both caught by the
surrounding `except (TypeError, KeyError)`, so both are `none`. -/
def TableDict.lookup : TableDict → String → Option TableDict
  | .leaf _, _ => none
  | .node _ items, k => List.lookup k items

/-- The check ending `inner_generator`: a value that is still a `TableDict`
resolves to `None` (an absent cell); a scalar is the cell's value. -/
def TableDict.finalValue : TableDict → Option Int
  | .node _ _ => none
  | .leaf n => some n

/-- Model of the loop of `inner_generator(vertical_accessor,
horizontal_accessor)`.  The accessor of each axis is either a real key list or
the `None` placeholder substituted when the axis has no accessors.  Consulting
an exhausted key list (`IndexError`) breaks out of the loop; consulting the
`None` placeholder (`None[x]`, a `TypeError` outside the inner `try`) is an
uncaught exception, modelled as `Except.error`. -/
def walk : TableDict → List Dir → Option (List String) → Option (List String) →
    Nat → Nat → Except Unit (Option Int)
  | t, [], _, _, _, _ => .ok t.finalValue
  | t, d :: rest, va, ha, x, y =>
    match d with
    | .horizontal =>
      match ha with
      | none => .error ()
      | some keys =>
        match keys.get? x with
        | none => .ok t.finalValue
        | some key =>
          match t.lookup key with
          | none => .ok none
          | some t' => walk t' rest va ha (x + 1) y
    | .vertical =>
      match va with
      | none => .error ()
      | some keys =>
        match keys.get? y with
        | none => .ok t.finalValue
        | some key =>
          match t.lookup key with
          | none => .ok none
          | some t' => walk t' rest va ha x (y + 1)

/-- Model of `inner_generator` itself. -/
def innerGenerator (t : TableDict) (s : List Dir)
    (va ha : Option (List String)) : Except Unit (Option Int) :=
  walk t s va ha 0 0

/-- Model of `vertical_accessors = self._vertical_accessors() or (None,)`. -/
def TableDict.vaList (t : TableDict) : List (Option (List String)) :=
  if t.verticalAccessors.isEmpty then [none] else t.verticalAccessors.map some

/-- Model of `horizontal_accessors = self._horizontal_accessors() or (None,)`. -/
def TableDict.haList (t : TableDict) : List (Option (List String)) :=
  if t.horizontalAccessors.isEmpty then [none] else t.horizontalAccessors.map some

/-- Model of `list(self._data_iterator())`: one resolved cell per
(vertical accessor, horizontal accessor) pair, vertical outermost.  An
uncaught exception in any cell aborts the whole iteration. -/
def dataCells (t : TableDict) (s : List Dir) : Except Unit (List (Option Int)) :=
  (t.vaList.flatMap (fun va => t.haList.map (fun ha => (va, ha)))).mapM
    (fun p => innerGenerator t s p.1 p.2)

/-- Model of `TableDict.get_ugliness()`. -/
def TableDict.getUgliness (t : TableDict) : Int :=
  let verticalLength : Int := Header.finalLength t.verticalHeaders
  let horizontalLength : Int := Header.finalLength t.horizontalHeaders
  verticalLength + horizontalLength + (verticalLength - horizontalLength).natAbs

mutual

/-- Size measure for header lists, used to justify termination of the
horizontal header iterator. -/
def Header.sizeList : List Header → Nat
  | [] => 0
  | h :: t => Header.sizeOne h + Header.sizeList t

def Header.sizeOne : Header → Nat
  | .leaf _ => 1
  | .group _ g => 1 + Header.sizeList g

end

/-- The children a header entry contributes to `to_be_explored` in
`_horizontal_header_iterator`: a group's nested list, nothing for a bare key. -/
def Header.childrenOf : Header → List Header
  | .leaf _ => []
  | .group _ g => g

theorem Header.sizeList_append (a b : List Header) :
    Header.sizeList (a ++ b) = Header.sizeList a + Header.sizeList b := by
  induction a with
  | nil => simp [Header.sizeList]
  | cons x xs ih => simp [Header.sizeList, ih]; omega

theorem Header.sizeList_flatMap_children (hs : List Header) :
    Header.sizeList (hs.flatMap Header.childrenOf) + hs.length ≤ Header.sizeList hs := by
  induction hs with
  | nil => simp [Header.sizeList]
  | cons x xs ih =>
    cases x with
    | leaf k =>
      simp only [List.flatMap_cons, Header.childrenOf, Header.sizeList, Header.sizeOne,
        List.nil_append, List.length_cons]
      omega
    | group k g =>
      simp only [List.flatMap_cons, Header.childrenOf, Header.sizeList, Header.sizeOne,
        List.length_cons, Header.sizeList_append]
      omega

/-- One item yielded by a header iterator: the header label, its depth, the
`props` dict (at most one `colspan`/`rowspan` entry here), and the `is_leaf`
flag. -/
abbrev HeaderItem := String × Nat × List (String × Nat) × Bool

/-- Model of `TableDict._horizontal_header_iterator(headers, depth)`, with
`maxd` the constant `self._get_headers_depth(self.horizontal_headers())`:
first all entries of the current level in order (a group gets
`colspan = final_length(children)`, a bare key gets `rowspan = maxd - depth`
when `depth <= maxd`), then one recursive pass over the concatenated children
of all groups of this level. -/
def hIter (maxd : Nat) (hs : List Header) (depth : Nat) : List HeaderItem :=
  (hs.map (fun h => match h with
    | .group k g => (k, depth, [("colspan", Header.finalLength g)], false)
    | .leaf k => (k, depth, (if depth ≤ maxd then [("rowspan", maxd - depth)] else []), true)))
  ++ (if _htbe : (hs.flatMap Header.childrenOf).isEmpty then []
      else hIter maxd (hs.flatMap Header.childrenOf) (depth + 1))
termination_by Header.sizeList hs
decreasing_by
  have h1 := Header.sizeList_flatMap_children hs
  have h2 : hs ≠ [] := by
    intro h
    rw [h] at _htbe
    simp at _htbe
  have h3 : 1 ≤ hs.length := List.length_pos.mpr h2
  omega

mutual

/-- Model of `TableDict._vertical_header_iterator(headers, depth)`, with
`maxd` the constant `self._get_headers_depth(self.vertical_headers())`:
a pre-order traversal (a group gets `rowspan = final_length(children)` and its
children follow immediately at `depth + 1`; a bare key gets
`colspan = maxd - depth` when `depth <= maxd`). -/
def vIter (maxd : Nat) : List Header → Nat → List HeaderItem
  | [], _ => []
  | h :: rest, depth => vIterOne maxd h depth ++ vIter maxd rest depth

def vIterOne (maxd : Nat) : Header → Nat → List HeaderItem
  | .group k g, depth =>
      (k, depth, [("rowspan", Header.finalLength g)], false) :: vIter maxd g (depth + 1)
  | .leaf k, depth =>
      [(k, depth, (if depth ≤ maxd then [("colspan", maxd - depth)] else []), true)]

end

/-- Model of `build_tag(name, props, content)`.  Note the unconditional space
after the tag name, exactly as in `'<%s %s>%s</%s>'`. -/
def buildTag (name : String) (props : List (String × Nat)) (content : String) : String :=
  "<" ++ name ++ " "
    ++ String.intercalate " " (props.map (fun p => p.1 ++ "=\"" ++ toString p.2 ++ "\""))
    ++ ">" ++ content ++ "</" ++ name ++ ">"

/-- Model of the top-left empty cell literal of `generate_html`:
`'<td colspan="%s" rowspan="%s" style="border: none;">'` with
`colspan = depth(vertical headers)` and `rowspan = depth(horizontal headers)`. -/
def cornerCell (colspan rowspan : Nat) : String :=
  "<td colspan=\"" ++ toString colspan ++ "\" rowspan=\"" ++ toString rowspan
    ++ "\" style=\"border: none;\">"

/-- Model of `'<td>%s</td>' % ('-' if data is None else data)`. -/
def cellTd : Option Int → String
  | none => "<td>" ++ "-" ++ "</td>"
  | some n => "<td>" ++ toString n ++ "</td>"

/-- Model of the inner `display_data(data_index)` of `generate_html`: the
slice `data[hl * i : hl * (i + 1)]` rendered as `<td>` cells. -/
def displayData (data : List (Option Int)) (hl : Nat) (i : Nat) : String :=
  String.join (((data.drop (hl * i)).take hl).map cellTd)

/-- The horizontal-headers loop of `generate_html`: a `'</tr><tr>'` break
whenever the depth changes, then the `<th>` tag.  `prev` is
`previous_depth`. -/
def hRows : List HeaderItem → Nat → String
  | [], _ => ""
  | (hd, depth, props, _) :: rest, prev =>
      (if depth ≠ prev then "</tr><tr>" else "") ++ buildTag "th" props hd
        ++ hRows rest depth

/-- The vertical-headers-and-data loop of `generate_html`: a `'</tr><tr>'`
break (and a data-row advance) whenever the depth does not increase, the
`<th>` tag, and the row's data cells after each leaf header.  `di` is
`data_index + 1` (Python starts `data_index` at `-1` and every use is
preceded by at least one increment, since the first item always satisfies
`depth <= previous_depth`). -/
def vRows (data : List (Option Int)) (hl : Nat) : List HeaderItem → Nat → Nat → String
  | [], _, _ => ""
  | (hd, depth, props, isLeaf) :: rest, prev, di =>
      let br := depth ≤ prev
      let di' := if br then di + 1 else di
      (if br then "</tr><tr>" else "") ++ buildTag "th" props hd
        ++ (if isLeaf then displayData data hl (di' - 1) else "")
        ++ vRows data hl rest depth di'

/-- The pure assembly of `generate_html` once the data list has been forced:
the optional header block (with the optional top-left corner cell), then
either the single data row (no vertical headers) or the vertical-header rows
interleaved with data, inside `<table>`. -/
def htmlAssemble (t : TableDict) (data : List (Option Int)) : String :=
  "<table>"
    ++ (if t.horizontalHeaders.isEmpty then ""
        else
          "<tr>"
            ++ (if t.verticalHeaders.isEmpty then ""
                else cornerCell (Header.headersDepth t.verticalHeaders)
                    (Header.headersDepth t.horizontalHeaders))
            ++ hRows (hIter (Header.headersDepth t.horizontalHeaders)
                t.horizontalHeaders 0) 0)
    ++ (if t.verticalHeaders.isEmpty then
          "</tr><tr>"
            ++ displayData data
                (if Header.finalLength t.horizontalHeaders = 0 then 1
                 else Header.finalLength t.horizontalHeaders) 0
            ++ "</tr>"
        else
          vRows data
            (if Header.finalLength t.horizontalHeaders = 0 then 1
             else Header.finalLength t.horizontalHeaders)
            (vIter (Header.headersDepth t.verticalHeaders) t.verticalHeaders 0) 0 0)
    ++ "</table>"

/-- Model of `TableDict.generate_html()`.  The structure stored on the root by
`build_table_dict` is passed explicitly.  The data list is forced by the first
`display_data` call; at least one such call always happens (every traversal
reaches a leaf header, and the no-vertical-headers branch calls it directly),
so an uncaught exception from `_data_iterator` propagates out of
`generate_html`. -/
def generateHtml (t : TableDict) (s : List Dir) : Except Unit String :=
  match dataCells t s with
  | .error e => .error e
  | .ok data => .ok (htmlAssemble t data)

/-- Stable insertion of a table in front of the first strictly-uglier-or-equal
position: the element being inserted comes from earlier in the input of
`sorted`, so it goes before elements of equal key. -/
def insertByKey (key : TableDict → Int) (x : TableDict) : List TableDict → List TableDict
  | [] => [x]
  | y :: ys => if key x ≤ key y then x :: y :: ys else y :: insertByKey key x ys

/-- Model of Python's stable `sorted(tables, key=...)`: a stable sort is
uniquely determined by sortedness plus preservation of the relative order of
equal keys, so stable insertion sort is extensionally the same list. -/
def sortByKey (key : TableDict → Int) : List TableDict → List TableDict
  | [] => []
  | x :: xs => insertByKey key x (sortByKey key xs)

/-- Model of `build_optimal_table_dict(datadict)`:
`sorted(tables, key=lambda t: t.get_ugliness())[0]`; indexing an empty list
raises, so the result is an `Option` bind. -/
def buildOptimalTableDict (datadict : Raw) : Option TableDict := do
  let tables ← (getAllStructures datadict).mapM (buildTableDict datadict)
  (sortByKey TableDict.getUgliness tables).head?

/-- Duplicate removal keeping first occurrences: the merge loop of
`_get_headers` run from an empty accumulator. -/
def pyDedup (l : List Header) : List Header :=
  mergeInto [] l

/-- The rank of a structure read as a binary numeral, `v` being the digit `0`
and `h` the digit `1`, most significant digit first. -/
def structRank (s : List Dir) : Nat :=
  s.foldl (fun a d => 2 * a + (match d with | .vertical => 0 | .horizontal => 1)) 0

/-- Python-2 name mangling inside `class TableDict`: an identifier with two
leading underscores is rewritten to `_TableDict` followed by the identifier.
String literals — such as the argument of `hasattr` — are not mangled. -/
def mangled (name : String) : String :=
  "_TableDict" ++ name

/-- The attribute dictionary of one `TableDict` instance, restricted to the
accessor-cache attributes relevant to `_horizontal_accessors`. -/
structure PyAttrs where
  attrs : List (String × List (List String))

/-- Model of `hasattr(self, name)`. -/
def pyHasattr (o : PyAttrs) (name : String) : Bool :=
  (o.attrs.map Prod.fst).contains name

/-- Model of `self.<name> = value` (for an attribute not previously bound,
which is the only way the cache slots are ever written here). -/
def pySetattr (o : PyAttrs) (name : String) (value : List (List String)) : PyAttrs :=
  ⟨o.attrs ++ [(name, value)]⟩

/-- Model of reading `self.<name>`. -/
def pyGetattr (o : PyAttrs) (name : String) : Option (List (List String)) :=
  o.attrs.lookup name

/-- Model of one call of `TableDict._horizontal_accessors(self)`.  The guard
is `hasattr(self, '__horizontal_accessors')` — a string literal, hence NOT
name-mangled — while the assignment and the final read use the identifier
`self.__horizontal_accessors`, which Python mangles to
`self._TableDict__horizontal_accessors`.  Returns the produced value, the new
attribute state, and whether this call recomputed the accessor list. -/
def horizontalAccessorsCall (t : TableDict) (o : PyAttrs) :
    Option (List (List String)) × PyAttrs × Bool :=
  if !pyHasattr o "__horizontal_accessors" then
    let o' := pySetattr o (mangled "__horizontal_accessors") t.horizontalAccessors
    (pyGetattr o' (mangled "__horizontal_accessors"), o', true)
  else
    (pyGetattr o (mangled "__horizontal_accessors"), o, false)

/-- C3.  `get_ugliness()` returns the non-negative even integer
`vertical_leaf_count + horizontal_leaf_count
 + |vertical_leaf_count - horizontal_leaf_count|`,
which equals `2 * max(vertical_leaf_count, horizontal_leaf_count)`, the leaf
counts being `_get_final_length` of the vertical and horizontal header
lists. -/
theorem getUgliness_spec (t : TableDict) :
    TableDict.getUgliness t =
        (Header.finalLength t.verticalHeaders : Int)
          + (Header.finalLength t.horizontalHeaders : Int)
          + ((Header.finalLength t.verticalHeaders : Int)
              - (Header.finalLength t.horizontalHeaders : Int)).natAbs ∧
      TableDict.getUgliness t =
        2 * max (Header.finalLength t.verticalHeaders : Int)
            (Header.finalLength t.horizontalHeaders : Int) ∧
      0 ≤ TableDict.getUgliness t ∧
      ∃ k : Int, TableDict.getUgliness t = 2 * k := by
  have hdef : TableDict.getUgliness t =
      (Header.finalLength t.verticalHeaders : Int)
        + (Header.finalLength t.horizontalHeaders : Int)
        + ((Header.finalLength t.verticalHeaders : Int)
            - (Header.finalLength t.horizontalHeaders : Int)).natAbs := rfl
  refine ⟨hdef, ?_, ?_, ?_⟩
  · rw [hdef]
    rcases le_total (Header.finalLength t.verticalHeaders : Int)
      (Header.finalLength t.horizontalHeaders : Int) with hle | hle
    · rw [max_eq_right hle]
      omega
    · rw [max_eq_left hle]
      omega
  · rw [hdef]
    omega
  · refine ⟨max (Header.finalLength t.verticalHeaders : Int)
        (Header.finalLength t.horizontalHeaders : Int), ?_⟩
    rw [hdef]
    rcases le_total (Header.finalLength t.verticalHeaders : Int)
      (Header.finalLength t.horizontalHeaders : Int) with hle | hle
    · rw [max_eq_right hle]
      omega
    · rw [max_eq_left hle]
      omega

theorem structRank_append_one (p : List Dir) (d : Dir) :
    structRank (p ++ [d]) =
      2 * structRank p + (match d with | .vertical => 0 | .horizontal => 1) := by
  unfold structRank
  rw [List.foldl_append]
  rfl

theorem range_flatMap_double (m : Nat) :
    (List.range m).flatMap (fun r => [2 * r, 2 * r + 1]) = List.range (2 * m) := by
  induction m with
  | zero => simp
  | succ n ih =>
    rw [List.range_succ, List.flatMap_append, ih]
    have h2 : 2 * (n + 1) = (2 * n + 1) + 1 := by omega
    rw [h2, List.range_succ, List.range_succ]
    simp

theorem dirProduct_map_rank (n : Nat) :
    (dirProduct n).map structRank = List.range (2 ^ n) := by
  induction n with
  | zero =>
    simp [dirProduct, structRank]
    decide
  | succ n ih =>
    unfold dirProduct
    rw [List.map_flatMap]
    have hcong :
        (dirProduct n).flatMap
            (fun p => List.map structRank [p ++ [Dir.vertical], p ++ [Dir.horizontal]]) =
          (dirProduct n).flatMap
            (fun p => [2 * structRank p, 2 * structRank p + 1]) := by
      apply List.flatMap_congr
      intro p _
      simp [structRank_append_one]
    rw [hcong]
    have hcomp : (dirProduct n).flatMap (fun p => [2 * structRank p, 2 * structRank p + 1]) =
        ((dirProduct n).map structRank).flatMap (fun r => [2 * r, 2 * r + 1]) := by
      rw [List.flatMap_map]
    rw [hcomp, ih, range_flatMap_double]
    congr 1
    rw [pow_succ]
    omega

theorem dirProduct_length (n : Nat) : (dirProduct n).length = 2 ^ n := by
  have h := congrArg List.length (dirProduct_map_rank n)
  simpa using h

theorem dirProduct_mem_length (n : Nat) : ∀ s ∈ dirProduct n, s.length = n := by
  induction n with
  | zero => simp [dirProduct]
  | succ n ih =>
    intro s hs
    unfold dirProduct at hs
    rw [List.mem_flatMap] at hs
    obtain ⟨p, hp, hmem⟩ := hs
    have hplen := ih p hp
    simp only [List.mem_cons, List.not_mem_nil, or_false] at hmem
    rcases hmem with rfl | rfl <;> simp [hplen]

theorem dirProduct_nodup (n : Nat) : (dirProduct n).Nodup := by
  have h := dirProduct_map_rank n
  have : ((dirProduct n).map structRank).Nodup := by
    rw [h]; exact List.nodup_range (2 ^ n)
  exact this.of_map structRank

theorem dirProduct_head (n : Nat) :
    (dirProduct n).head? = some (List.replicate n Dir.vertical) := by
  induction n with
  | zero => simp [dirProduct]
  | succ n ih =>
    unfold dirProduct
    obtain ⟨rest, hrest⟩ : ∃ rest, dirProduct n = List.replicate n Dir.vertical :: rest := by
      cases hdp : dirProduct n with
      | nil => rw [hdp] at ih; simp at ih
      | cons a l =>
        rw [hdp] at ih
        simp at ih
        exact ⟨l, by rw [ih]⟩
    rw [hrest]
    simp [List.replicate_succ']

/-- C4.  `get_all_structures(datadict)` returns exactly `2 ^ d` structures for
`d` the nesting depth computed by `_get_headers_depth(datadict)`, each of
length `d` (each entry being one of the two direction tags, by the type of
`Dir`), with no two returned structures equal. -/
theorem getAllStructures_spec (datadict : Raw) (d : Nat)
    (hdepth : Raw.headersDepth datadict = d) :
    (getAllStructures datadict).length = 2 ^ d ∧
      (∀ s ∈ getAllStructures datadict, s.length = d) ∧
      (getAllStructures datadict).Nodup := by
  unfold getAllStructures
  rw [hdepth]
  exact ⟨dirProduct_length d, dirProduct_mem_length d, dirProduct_nodup d⟩

/-- C4 witness: the two-level example data of the repository's test suite has
nesting depth 2 and yields 4 pairwise-distinct structures of length 2. -/
theorem getAllStructures_spec_witness :
    Raw.headersDepth (Raw.node
        [("a", Raw.node [("aa", Raw.int 11), ("ab", Raw.int 12)]),
         ("b", Raw.node [("ba", Raw.int 21), ("bb", Raw.int 22), ("bc", Raw.int 23)]),
         ("c", Raw.node [("ca", Raw.int 31)])]) = 2 ∧
      ((getAllStructures (Raw.node
          [("a", Raw.node [("aa", Raw.int 11), ("ab", Raw.int 12)]),
           ("b", Raw.node [("ba", Raw.int 21), ("bb", Raw.int 22), ("bc", Raw.int 23)]),
           ("c", Raw.node [("ca", Raw.int 31)])])).length = 2 ^ 2 ∧
        (∀ s ∈ getAllStructures (Raw.node
            [("a", Raw.node [("aa", Raw.int 11), ("ab", Raw.int 12)]),
             ("b", Raw.node [("ba", Raw.int 21), ("bb", Raw.int 22), ("bc", Raw.int 23)]),
             ("c", Raw.node [("ca", Raw.int 31)])]), s.length = 2) ∧
        (getAllStructures (Raw.node
            [("a", Raw.node [("aa", Raw.int 11), ("ab", Raw.int 12)]),
             ("b", Raw.node [("ba", Raw.int 21), ("bb", Raw.int 22), ("bc", Raw.int 23)]),
             ("c", Raw.node [("ca", Raw.int 31)])])).Nodup) :=
  ⟨by decide, getAllStructures_spec _ 2 (by decide)⟩

/-- C10.  `get_all_structures` enumerates the axis-assignment product in
lexicographic order with `v` (vertical) before `h` (horizontal) at every
position and the last position varying fastest: reading each structure as a
binary numeral (most significant digit first, `v = 0`, `h = 1`), the
enumeration is exactly `0, 1, 2, ..., 2^d - 1`; in particular the first
enumerated structure is the all-vertical one. -/
theorem getAllStructures_enum_order (datadict : Raw) :
    ((getAllStructures datadict).map structRank
        = List.range (2 ^ Raw.headersDepth datadict)) ∧
      (getAllStructures datadict).head?
        = some (List.replicate (Raw.headersDepth datadict) Dir.vertical) :=
  ⟨dirProduct_map_rank _, dirProduct_head _⟩

theorem mergeInto_append (acc a b : List Header) :
    mergeInto acc (a ++ b) = mergeInto (mergeInto acc a) b := by
  unfold mergeInto
  rw [List.foldl_append]

theorem mergeInto_mem (x : Header) :
    ∀ (l acc : List Header), x ∈ mergeInto acc l ↔ x ∈ acc ∨ x ∈ l := by
  intro l
  induction l with
  | nil => simp [mergeInto]
  | cons hd tl ih =>
    intro acc
    show x ∈ mergeInto (if hd ∈ acc then acc else acc ++ [hd]) tl ↔ _
    rw [ih]
    by_cases hmem : hd ∈ acc
    · rw [if_pos hmem]
      constructor
      · rintro (h | h)
        · exact Or.inl h
        · exact Or.inr (List.mem_cons_of_mem _ h)
      · rintro (h | h)
        · exact Or.inl h
        · rcases List.mem_cons.1 h with rfl | h2
          · exact Or.inl hmem
          · exact Or.inr h2
    · rw [if_neg hmem]
      simp only [List.mem_append, List.mem_singleton, List.mem_cons]
      tauto

theorem mergeInto_nodup :
    ∀ (l acc : List Header), acc.Nodup → (mergeInto acc l).Nodup := by
  intro l
  induction l with
  | nil => exact fun acc h => h
  | cons hd tl ih =>
    intro acc hacc
    show (mergeInto (if hd ∈ acc then acc else acc ++ [hd]) tl).Nodup
    by_cases hmem : hd ∈ acc
    · simpa [hmem] using ih acc hacc
    · have : (acc ++ [hd]).Nodup := by
        simp [List.nodup_append, hacc, hmem]
      simpa [hmem] using ih (acc ++ [hd]) this

theorem headersAux_merge (side dir : Dir) (hne : dir ≠ side) :
    ∀ (items : List (String × TableDict)) (acc : List Header),
      headersAux side dir items acc =
        mergeInto acc ((items.map (fun p => TableDict.getHeaders side p.2)).flatten) := by
  intro items
  induction items with
  | nil => intro acc; simp [headersAux, mergeInto]
  | cons p rest ih =>
    intro acc
    obtain ⟨k, val⟩ := p
    rw [List.map_cons, List.flatten_cons, mergeInto_append]
    rw [headersAux, ih]
    by_cases hch : (TableDict.getHeaders side val).isEmpty
    · have hnil : TableDict.getHeaders side val = [] := by
        simpa [List.isEmpty_iff] using hch
      rw [if_pos hch, hnil]
      have hleaf : leafStep side dir k acc = acc := by
        unfold leafStep
        rw [if_neg]
        rintro ⟨h1, -⟩
        exact hne h1
      rw [hleaf]
      rfl
    · rw [if_neg hch, if_neg hne]

/-- C6.  When a node's own direction differs from the requested side,
`_get_headers` merges every child's headers into the current level with
duplicates skipped and first-seen order preserved, and never adds the child's
own key in that branch: the result is exactly the first-occurrence
deduplication of the concatenation of the children's header lists (so a key
shared by sibling subtrees appears exactly once), the result has no
duplicates, and an entry occurs in it exactly when it occurs in some child's
headers. -/
theorem getHeaders_merge_dedup (side dir : Dir) (items : List (String × TableDict))
    (hne : dir ≠ side) :
    TableDict.getHeaders side (.node dir items)
        = pyDedup ((items.map (fun p => TableDict.getHeaders side p.2)).flatten) ∧
      (TableDict.getHeaders side (.node dir items)).Nodup ∧
      ∀ hd, hd ∈ TableDict.getHeaders side (.node dir items) ↔
        ∃ p ∈ items, hd ∈ TableDict.getHeaders side p.2 := by
  have hmain : TableDict.getHeaders side (.node dir items)
      = pyDedup ((items.map (fun p => TableDict.getHeaders side p.2)).flatten) := by
    show headersAux side dir items []
        = pyDedup ((items.map (fun p => TableDict.getHeaders side p.2)).flatten)
    rw [headersAux_merge side dir hne]
    rfl
  refine ⟨hmain, ?_, ?_⟩
  · rw [hmain]
    exact mergeInto_nodup _ [] List.nodup_nil
  · intro hd
    rw [hmain]
    unfold pyDedup
    rw [mergeInto_mem]
    simp only [List.not_mem_nil, false_or, List.mem_flatten, List.mem_map]
    constructor
    · rintro ⟨l, ⟨p, hp, rfl⟩, hmem⟩
      exact ⟨p, hp, hmem⟩
    · rintro ⟨p, hp, hmem⟩
      exact ⟨TableDict.getHeaders side p.2, ⟨p, hp, rfl⟩, hmem⟩

/-- C6 witness (Scenario D of the spec): two sibling subtrees both containing
the key `x`, merged onto the horizontal axis by a vertical parent — the merged
header list contains `x` exactly once. -/
theorem getHeaders_merge_dedup_witness :
    TableDict.getHeaders Dir.horizontal
        (.node Dir.vertical
          [("a", .node Dir.horizontal [("x", .leaf 1)]),
           ("b", .node Dir.horizontal [("x", .leaf 2)])])
      = pyDedup (([("a", TableDict.node Dir.horizontal [("x", TableDict.leaf 1)]),
            ("b", TableDict.node Dir.horizontal [("x", TableDict.leaf 2)])].map
          (fun p => TableDict.getHeaders Dir.horizontal p.2)).flatten) ∧
      (TableDict.getHeaders Dir.horizontal
        (.node Dir.vertical
          [("a", .node Dir.horizontal [("x", .leaf 1)]),
           ("b", .node Dir.horizontal [("x", .leaf 2)])])).Nodup ∧
      ∀ hd, hd ∈ TableDict.getHeaders Dir.horizontal
          (.node Dir.vertical
            [("a", .node Dir.horizontal [("x", .leaf 1)]),
             ("b", .node Dir.horizontal [("x", .leaf 2)])]) ↔
        ∃ p ∈ [("a", TableDict.node Dir.horizontal [("x", TableDict.leaf 1)]),
            ("b", TableDict.node Dir.horizontal [("x", TableDict.leaf 2)])],
          hd ∈ TableDict.getHeaders Dir.horizontal p.2 :=
  getHeaders_merge_dedup Dir.horizontal Dir.vertical
    [("a", .node Dir.horizontal [("x", .leaf 1)]),
     ("b", .node Dir.horizontal [("x", .leaf 2)])] (by decide)

theorem applyStructure_short :
    ∀ r : Raw, ∀ k level : Nat, ∀ s : List Dir,
      Raw.wf r k = true → 1 ≤ k → s.length < level + k →
      applyStructure r s level = none := by
  have main :=
    Raw.rawInd
      (P := fun r => ∀ k level s,
        Raw.wf r k = true → 1 ≤ k → s.length < level + k →
        applyStructure r s level = none)
      (Q := fun items => ∀ p ∈ items, ∀ k level s,
        Raw.wf p.2 k = true → 1 ≤ k → s.length < level + k →
        applyStructure p.2 s level = none)
      (fun n k level s hwf hk _ => by
        simp [Raw.wf] at hwf
        omega)
      (fun items ih k level s hwf hk hlt => by
        cases k with
        | zero => omega
        | succ m =>
          simp only [Raw.wf, Bool.and_eq_true, Bool.not_eq_true'] at hwf
          obtain ⟨⟨hne, -⟩, hwfi⟩ := hwf
          rcases Nat.lt_or_ge level s.length with hlev | hlev
          · have hm : 1 ≤ m := by omega
            cases items with
            | nil => simp at hne
            | cons p rest =>
              obtain ⟨k0, v0⟩ := p
              have hwf0 : Raw.wf v0 m = true := by
                simp only [Raw.wfItems, Bool.and_eq_true] at hwfi
                exact hwfi.1
              cases v0 with
              | int n0 =>
                simp [Raw.wf] at hwf0
                omega
              | node l0 =>
                have hrec : applyStructure (Raw.node l0) s (level + 1) = none :=
                  ih (k0, Raw.node l0) (List.mem_cons_self _ _) m (level + 1) s hwf0 hm
                    (by omega)
                rw [applyStructure]
                cases hget : s.get? level with
                | none => rfl
                | some d =>
                  have : applyItems ((k0, Raw.node l0) :: rest) s level = none := by
                    rw [applyItems, hrec]
                    rfl
                  rw [this]
                  rfl
          · rw [applyStructure]
            have : s.get? level = none := by
              rw [List.get?_eq_none]
              omega
            rw [this])
      (fun p hp => absurd hp (List.not_mem_nil p))
      (fun k v rest pv prest p hp => by
        rcases List.mem_cons.1 hp with rfl | hmem
        · exact pv
        · exact prest p hmem)
  exact main

/-- C7.  Calling `build_table_dict` with a structure strictly shorter than the
data's nesting depth fails (the evaluation of `structure[level]` raises an
uncaught `IndexError`) instead of silently truncating the tree and returning a
table: the model returns `none`, never `some table`. -/
theorem buildTableDict_short_structure_fails (datadict : Raw) (d : Nat) (s : List Dir)
    (hwf : Raw.wf datadict d = true) (hd : 1 ≤ d) (hlt : s.length < d) :
    buildTableDict datadict s = none :=
  applyStructure_short datadict d 0 s hwf hd (by omega)

/-- C7 witness: two-level well-formed data with a one-entry structure. -/
theorem buildTableDict_short_structure_fails_witness :
    Raw.wf (Raw.node [("a", Raw.node [("aa", Raw.int 11)])]) 2 = true ∧
      (1 : Nat) ≤ 2 ∧ ([Dir.vertical] : List Dir).length < 2 ∧
      buildTableDict (Raw.node [("a", Raw.node [("aa", Raw.int 11)])]) [Dir.vertical] = none :=
  ⟨by decide, by decide, by decide,
    buildTableDict_short_structure_fails _ 2 [Dir.vertical] (by decide) (by decide) (by decide)⟩

/-- C9.  The lazily computed accessor cache is NOT populated at most once:
`_horizontal_accessors` tests `hasattr(self, '__horizontal_accessors')` with
an unmangled string literal while the assignment binds the Python-2-mangled
attribute `_TableDict__horizontal_accessors`, so the guard is always false and
every call recomputes and re-assigns.  At the concrete one-entry table below,
the first call computes (as the claim allows) and the second call recomputes
and re-assigns as well (which the claim forbids); both calls still return the
correct accessor list. -/
theorem accessor_cache_recomputes_every_call :
    (horizontalAccessorsCall (.node Dir.vertical [("a", .leaf 1)]) ⟨[]⟩).2.2 = true ∧
      (horizontalAccessorsCall (.node Dir.vertical [("a", .leaf 1)])
        (horizontalAccessorsCall (.node Dir.vertical [("a", .leaf 1)]) ⟨[]⟩).2.1).2.2 = true ∧
      (horizontalAccessorsCall (.node Dir.vertical [("a", .leaf 1)])
          (horizontalAccessorsCall (.node Dir.vertical [("a", .leaf 1)]) ⟨[]⟩).2.1).1
        = some (TableDict.horizontalAccessors (.node Dir.vertical [("a", .leaf 1)])) := by
  refine ⟨rfl, rfl, ?_⟩
  rfl

/-- Shape of a table built from well-formed data with structure `ds`: one
direction per remaining depth level, nonempty nodes, scalars exactly at the
bottom. -/
inductive TDShape : TableDict → List Dir → Prop
  | leaf : ∀ n, TDShape (.leaf n) []
  | node : ∀ d items rest, items ≠ [] → (∀ p ∈ items, TDShape p.2 rest) →
      TDShape (.node d items) (d :: rest)

theorem drop_eq_get_cons {α : Type} (s : List α) (i : Nat) (h : i < s.length) :
    s.drop i = s.get ⟨i, h⟩ :: s.drop (i + 1) := by
  rw [List.drop_eq_getElem_cons h]
  rfl

theorem applyStructure_wf :
    ∀ r : Raw, ∀ k level : Nat, ∀ s : List Dir,
      Raw.wf r k = true → level + k = s.length → 1 ≤ k →
      ∃ t, applyStructure r s level = some t ∧ TDShape t (s.drop level) := by
  have main :=
    Raw.rawInd
      (P := fun r => ∀ k level s,
        Raw.wf r k = true → level + k = s.length → 1 ≤ k →
        ∃ t, applyStructure r s level = some t ∧ TDShape t (s.drop level))
      (Q := fun items => ∀ k level s,
        Raw.wfItems items k = true → level + 1 + k = s.length →
        ∃ its, applyItems items s level = some its ∧ its.length = items.length ∧
          ∀ q ∈ its, TDShape q.2 (s.drop (level + 1)))
      (fun n k level s hwf _ hk => by
        simp [Raw.wf] at hwf
        omega)
      (fun items ih k level s hwf hlen _ => by
        cases k with
        | zero => simp [Raw.wf] at hwf
        | succ m =>
          simp only [Raw.wf, Bool.and_eq_true, Bool.not_eq_true'] at hwf
          obtain ⟨⟨hne, -⟩, hwfi⟩ := hwf
          have hlev : level < s.length := by omega
          obtain ⟨its, happ, hlen2, hshapes⟩ :=
            ih m level s hwfi (by omega)
          refine ⟨.node (s.get ⟨level, hlev⟩) its, ?_, ?_⟩
          · rw [applyStructure]
            rw [List.get?_eq_get hlev, happ]
            rfl
          · rw [drop_eq_get_cons s level hlev]
            refine TDShape.node _ its _ ?_ hshapes
            intro hits
            rw [hits] at hlen2
            simp at hlen2
            have : items = [] := List.length_eq_zero.mp hlen2.symm
            rw [this] at hne
            simp at hne)
      (fun k level s _ _ => ⟨[], rfl, rfl, fun q hq => absurd hq (List.not_mem_nil q)⟩)
      (fun k0 v0 rest pv prest kk level s hwfi hlen => by
        simp only [Raw.wfItems, Bool.and_eq_true] at hwfi
        obtain ⟨hwf0, hwfr⟩ := hwfi
        obtain ⟨its, happ, hlen2, hshapes⟩ := prest kk level s hwfr hlen
        cases v0 with
        | int n0 =>
          have hk0 : kk = 0 := by
            simpa [Raw.wf] using hwf0
          subst hk0
          have hdropnil : s.drop (level + 1) = [] := by
            rw [List.drop_eq_nil_iff]
            omega
          refine ⟨(k0, .leaf n0) :: its, ?_, by simp [hlen2], ?_⟩
          · rw [applyItems, happ]
            rfl
          · intro q hq
            rcases List.mem_cons.1 hq with rfl | hmem
            · rw [hdropnil]
              exact TDShape.leaf n0
            · exact hshapes q hmem
        | node l0 =>
          have hk1 : 1 ≤ kk := by
            cases kk with
            | zero => simp [Raw.wf] at hwf0
            | succ mm => omega
          obtain ⟨t0, happ0, hshape0⟩ :=
            pv kk (level + 1) s hwf0 (by omega) hk1
          refine ⟨(k0, t0) :: its, ?_, by simp [hlen2], ?_⟩
          · rw [applyItems, happ0, happ]
            rfl
          · intro q hq
            rcases List.mem_cons.1 hq with rfl | hmem
            · exact hshape0
            · exact hshapes q hmem)
  exact main

theorem buildTableDict_wf (datadict : Raw) (d : Nat) (s : List Dir) (t : TableDict)
    (hwf : Raw.wf datadict d = true) (hlen : s.length = d) (hd : 1 ≤ d)
    (hbuild : buildTableDict datadict s = some t) :
    TDShape t s := by
  obtain ⟨t', hsome, hshape⟩ :=
    applyStructure_wf datadict d 0 s hwf (by omega) hd
  unfold buildTableDict at hbuild
  rw [hbuild] at hsome
  obtain rfl : t = t' := by
    injection hsome
  simpa using hshape

theorem mergeInto_length (l : List Header) :
    ∀ acc : List Header, acc.length ≤ (mergeInto acc l).length := by
  induction l with
  | nil => exact fun acc => Nat.le_refl _
  | cons hd tl ih =>
    intro acc
    have hstep : acc.length ≤ (if hd ∈ acc then acc else acc ++ [hd]).length := by
      by_cases hmem : hd ∈ acc <;> simp [hmem]
    calc acc.length ≤ (if hd ∈ acc then acc else acc ++ [hd]).length := hstep
      _ ≤ (mergeInto (if hd ∈ acc then acc else acc ++ [hd]) tl).length := ih _

theorem leafStep_length (side dir : Dir) (k : String) (acc : List Header) :
    acc.length ≤ (leafStep side dir k acc).length := by
  unfold leafStep
  by_cases hc : dir = side ∧ Header.leaf k ∉ acc <;> simp [hc]

theorem headersAux_length (side dir : Dir) :
    ∀ (items : List (String × TableDict)) (acc : List Header),
      acc.length ≤ (headersAux side dir items acc).length := by
  intro items
  induction items with
  | nil => exact fun acc => Nat.le_refl _
  | cons p rest ih =>
    intro acc
    obtain ⟨k, val⟩ := p
    rw [headersAux]
    refine Nat.le_trans ?_ (ih _)
    by_cases hch : (TableDict.getHeaders side val).isEmpty
    · rw [if_pos hch]
      exact leafStep_length side dir k acc
    · rw [if_neg hch]
      by_cases hdir : dir = side
      · rw [if_pos hdir]
        simp
      · rw [if_neg hdir]
        exact mergeInto_length _ acc

theorem headersAux_ne_nil (side dir : Dir) (items : List (String × TableDict))
    (acc : List Header) (hacc : acc ≠ []) :
    headersAux side dir items acc ≠ [] := by
  intro hnil
  have h1 : 1 ≤ acc.length := List.length_pos.mpr hacc
  have h2 := headersAux_length side dir items acc
  rw [hnil] at h2
  simp only [List.length_nil, Nat.le_zero] at h2
  omega

theorem mergeInto_ne_nil (ch : List Header) (hch : ch ≠ []) :
    mergeInto [] ch ≠ [] := by
  intro hnil
  cases ch with
  | nil => exact hch rfl
  | cons c cs =>
    have : mergeInto [] (c :: cs) = mergeInto [c] cs := by
      show mergeInto (if c ∈ ([] : List Header) then [] else [] ++ [c]) cs = _
      simp
    rw [this] at hnil
    have := mergeInto_length cs [c]
    rw [hnil] at this
    simp at this

theorem getHeaders_ne_nil (t : TableDict) (ds : List Dir) (hshape : TDShape t ds) :
    ∀ side, side ∈ ds → TableDict.getHeaders side t ≠ [] := by
  induction hshape with
  | leaf n => intro side hmem; cases hmem
  | node d items rest hne hall ih =>
    intro side hmem
    cases items with
    | nil => exact absurd rfl hne
    | cons p0 rest' =>
      obtain ⟨k0, v0⟩ := p0
      show headersAux side d ((k0, v0) :: rest') [] ≠ []
      rw [headersAux]
      apply headersAux_ne_nil
      rcases List.mem_cons.1 hmem with rfl | hrest
      · by_cases hch : (TableDict.getHeaders side v0).isEmpty
        · rw [if_pos hch]
          unfold leafStep
          rw [if_pos ⟨rfl, List.not_mem_nil _⟩]
          simp
        · rw [if_neg hch, if_pos rfl]
          simp
      · have hrne : rest ≠ [] := List.ne_nil_of_mem hrest
        have hshape0 : TDShape v0 rest := hall (k0, v0) (List.mem_cons_self _ _)
        have hv0 : TableDict.getHeaders side v0 ≠ [] := by
          cases hshape0 with
          | leaf n => exact absurd rfl hrne
          | node d2 items2 rest2 hne2 hall2 =>
              exact ih (k0, .node d2 items2) (List.mem_cons_self _ _) side hrest
        have hch : ¬ (TableDict.getHeaders side v0).isEmpty := by
          simpa [List.isEmpty_iff] using hv0
        rw [if_neg hch]
        by_cases hdir : d = side
        · rw [if_pos hdir]
          simp
        · rw [if_neg hdir]
          exact mergeInto_ne_nil _ hv0

/-- Invariant of header lists produced by `_get_headers`: every group carries
a nonempty child list (groups are only appended under `if child_headers:`). -/
inductive GoodHeader : Header → Prop
  | leaf : ∀ k, GoodHeader (.leaf k)
  | group : ∀ k g, g ≠ [] → (∀ h ∈ g, GoodHeader h) → GoodHeader (.group k g)

theorem mergeInto_good (ch : List Header) (acc : List Header)
    (hacc : ∀ x ∈ acc, GoodHeader x) (hch : ∀ x ∈ ch, GoodHeader x) :
    ∀ x ∈ mergeInto acc ch, GoodHeader x := by
  intro x hx
  rcases (mergeInto_mem x ch acc).1 hx with h | h
  · exact hacc x h
  · exact hch x h

theorem getHeaders_good (t : TableDict) :
    ∀ side, ∀ x ∈ TableDict.getHeaders side t, GoodHeader x := by
  have main :=
    TableDict.tdInd
      (P := fun t => ∀ side, ∀ x ∈ TableDict.getHeaders side t, GoodHeader x)
      (Q := fun items => ∀ p ∈ items, ∀ side, ∀ x ∈ TableDict.getHeaders side p.2,
        GoodHeader x)
      (fun n side x hx => absurd hx (List.not_mem_nil x))
      (fun d items ihq side x hx => by
        suffices haux : ∀ (its : List (String × TableDict)) (acc : List Header),
            (∀ p ∈ its, ∀ x ∈ TableDict.getHeaders side p.2, GoodHeader x) →
            (∀ x ∈ acc, GoodHeader x) →
            ∀ x ∈ headersAux side d its acc, GoodHeader x by
          exact haux items []
            (fun p hp => ihq p hp side)
            (fun x hx => absurd hx (List.not_mem_nil x)) x hx
        intro its
        induction its with
        | nil => intro acc hits hacc y hy; exact hacc y hy
        | cons p rest ihl =>
          intro acc hits hacc y hy
          obtain ⟨k, val⟩ := p
          rw [headersAux] at hy
          refine ihl _
            (fun q hq => hits q (List.mem_cons_of_mem _ hq)) ?_ y hy
          by_cases hch : (TableDict.getHeaders side val).isEmpty
          · rw [if_pos hch]
            unfold leafStep
            by_cases hc : d = side ∧ Header.leaf k ∉ acc
            · rw [if_pos hc]
              intro z hz
              rcases List.mem_append.1 hz with h | h
              · exact hacc z h
              · rcases List.mem_singleton.1 h with rfl
                exact GoodHeader.leaf k
            · rw [if_neg hc]
              exact hacc
          · rw [if_neg hch]
            have hvgood : ∀ z ∈ TableDict.getHeaders side val, GoodHeader z :=
              hits (k, val) (List.mem_cons_self _ _)
            by_cases hdir : d = side
            · rw [if_pos hdir]
              intro z hz
              rcases List.mem_append.1 hz with h | h
              · exact hacc z h
              · rcases List.mem_singleton.1 h with rfl
                exact GoodHeader.group k _ (by simpa [List.isEmpty_iff] using hch) hvgood
            · rw [if_neg hdir]
              exact mergeInto_good _ acc hacc hvgood)
      (fun p hp => absurd hp (List.not_mem_nil p))
      (fun k v rest pv prest p hp => by
        rcases List.mem_cons.1 hp with rfl | hmem
        · exact pv
        · exact prest p hmem)
  exact fun side => main t side

theorem finalLength_pos_of_good :
    ∀ h : Header, GoodHeader h → 1 ≤ Header.finalOne h := by
  intro h hgood
  induction hgood with
  | leaf k => simp [Header.finalOne]
  | group k g hne hall ih =>
    show 1 ≤ Header.finalLength g
    cases g with
    | nil => exact absurd rfl hne
    | cons g0 grest =>
      have h0 := ih g0 (List.mem_cons_self _ _)
      rw [Header.finalLength]
      omega

theorem finalLength_pos (hs : List Header) (hgood : ∀ x ∈ hs, GoodHeader x)
    (hne : hs ≠ []) : 1 ≤ Header.finalLength hs := by
  cases hs with
  | nil => exact absurd rfl hne
  | cons h0 rest =>
    have := finalLength_pos_of_good h0 (hgood h0 (List.mem_cons_self _ _))
    rw [Header.finalLength]
    omega

theorem accessorsList_length :
    ∀ hs : List Header, ∀ parents : List String,
      (Header.accessorsList hs parents).length = Header.finalLength hs := by
  have main :=
    Header.hdrInd
      (P := fun h => ∀ parents,
        (Header.accessorsOne h parents).length = Header.finalOne h)
      (Q := fun hs => ∀ parents,
        (Header.accessorsList hs parents).length = Header.finalLength hs)
      (fun k parents => by simp [Header.accessorsOne, Header.finalOne])
      (fun k g ihg parents => by
        show (Header.accessorsList g (parents ++ [k])).length = Header.finalLength g
        exact ihg (parents ++ [k]))
      (fun parents => by simp [Header.accessorsList, Header.finalLength])
      (fun h rest ph prest parents => by
        rw [Header.accessorsList, Header.finalLength, List.length_append,
          ph parents, prest parents])
  intro hs
  exact
    Header.hdrIndList
      (P := fun h => ∀ parents,
        (Header.accessorsOne h parents).length = Header.finalOne h)
      (Q := fun hs => ∀ parents,
        (Header.accessorsList hs parents).length = Header.finalLength hs)
      (fun k parents => by simp [Header.accessorsOne, Header.finalOne])
      (fun k g ihg parents => by
        show (Header.accessorsList g (parents ++ [k])).length = Header.finalLength g
        exact ihg (parents ++ [k]))
      (fun parents => by simp [Header.accessorsList, Header.finalLength])
      (fun h rest ph prest parents => by
        rw [Header.accessorsList, Header.finalLength, List.length_append,
          ph parents, prest parents])
      hs

theorem walk_ok_some_some :
    ∀ (s : List Dir) (t : TableDict) (va ha : List String) (x y : Nat),
      ∃ r, walk t s (some va) (some ha) x y = .ok r := by
  intro s
  induction s with
  | nil => exact fun t va ha x y => ⟨t.finalValue, rfl⟩
  | cons d rest ih =>
    intro t va ha x y
    cases d with
    | horizontal =>
      rw [walk]
      cases ha.get? x with
      | none => exact ⟨t.finalValue, rfl⟩
      | some key =>
        show ∃ r, (match t.lookup key with
            | none => Except.ok none
            | some t' => walk t' rest (some va) (some ha) (x + 1) y) = Except.ok r
        cases t.lookup key with
        | none => exact ⟨none, rfl⟩
        | some t' => exact ih t' va ha (x + 1) y
    | vertical =>
      rw [walk]
      cases va.get? y with
      | none => exact ⟨t.finalValue, rfl⟩
      | some key =>
        show ∃ r, (match t.lookup key with
            | none => Except.ok none
            | some t' => walk t' rest (some va) (some ha) x (y + 1)) = Except.ok r
        cases t.lookup key with
        | none => exact ⟨none, rfl⟩
        | some t' => exact ih t' va ha x (y + 1)

theorem walk_ok_no_vertical :
    ∀ (s : List Dir), Dir.vertical ∉ s →
      ∀ (t : TableDict) (ha : List String) (x y : Nat),
        ∃ r, walk t s none (some ha) x y = .ok r := by
  intro s
  induction s with
  | nil => exact fun _ t ha x y => ⟨t.finalValue, rfl⟩
  | cons d rest ih =>
    intro hnv t ha x y
    cases d with
    | horizontal =>
      rw [walk]
      cases ha.get? x with
      | none => exact ⟨t.finalValue, rfl⟩
      | some key =>
        show ∃ r, (match t.lookup key with
            | none => Except.ok none
            | some t' => walk t' rest none (some ha) (x + 1) y) = Except.ok r
        cases t.lookup key with
        | none => exact ⟨none, rfl⟩
        | some t' => exact ih (fun hmem => hnv (List.mem_cons_of_mem _ hmem)) t' ha (x + 1) y
    | vertical => exact absurd (List.mem_cons_self _ _) hnv

theorem walk_ok_no_horizontal :
    ∀ (s : List Dir), Dir.horizontal ∉ s →
      ∀ (t : TableDict) (va : List String) (x y : Nat),
        ∃ r, walk t s (some va) none x y = .ok r := by
  intro s
  induction s with
  | nil => exact fun _ t va x y => ⟨t.finalValue, rfl⟩
  | cons d rest ih =>
    intro hnh t va x y
    cases d with
    | vertical =>
      rw [walk]
      cases va.get? y with
      | none => exact ⟨t.finalValue, rfl⟩
      | some key =>
        show ∃ r, (match t.lookup key with
            | none => Except.ok none
            | some t' => walk t' rest (some va) none x (y + 1)) = Except.ok r
        cases t.lookup key with
        | none => exact ⟨none, rfl⟩
        | some t' => exact ih (fun hmem => hnh (List.mem_cons_of_mem _ hmem)) t' va x (y + 1)
    | horizontal => exact absurd (List.mem_cons_self _ _) hnh

theorem accessors_ne_nil (t : TableDict) (s : List Dir) (side : Dir)
    (hshape : TDShape t s) (hmem : side ∈ s) :
    Header.accessorsList (TableDict.getHeaders side t) [] ≠ [] := by
  have hhead := getHeaders_ne_nil t s hshape side hmem
  have hgood := getHeaders_good t side
  have hfl := finalLength_pos _ hgood hhead
  intro hnil
  have := accessorsList_length (TableDict.getHeaders side t) []
  rw [hnil] at this
  simp at this
  omega

theorem innerGenerator_ok (t : TableDict) (s : List Dir) (hshape : TDShape t s) :
    ∀ va ∈ t.vaList, ∀ ha ∈ t.haList, ∃ r, innerGenerator t s va ha = .ok r := by
  intro va hva ha hha
  unfold TableDict.vaList at hva
  unfold TableDict.haList at hha
  by_cases hvacc : t.verticalAccessors.isEmpty
  · have hnv : Dir.vertical ∉ s := by
      intro hmem
      exact accessors_ne_nil t s Dir.vertical hshape hmem
        (by simpa [TableDict.verticalAccessors, TableDict.verticalHeaders,
          List.isEmpty_iff] using hvacc)
    rw [if_pos hvacc] at hva
    rcases List.mem_singleton.1 hva with rfl
    by_cases hhacc : t.horizontalAccessors.isEmpty
    · have hnh : Dir.horizontal ∉ s := by
        intro hmem
        exact accessors_ne_nil t s Dir.horizontal hshape hmem
          (by simpa [TableDict.horizontalAccessors, TableDict.horizontalHeaders,
            List.isEmpty_iff] using hhacc)
      have hs : s = [] := by
        cases s with
        | nil => rfl
        | cons d rest =>
          cases d with
          | horizontal => exact absurd (List.mem_cons_self _ _) hnh
          | vertical => exact absurd (List.mem_cons_self _ _) hnv
      subst hs
      exact ⟨t.finalValue, rfl⟩
    · rw [if_neg hhacc] at hha
      obtain ⟨l, -, rfl⟩ := List.mem_map.1 hha
      exact walk_ok_no_vertical s hnv t l 0 0
  · rw [if_neg hvacc] at hva
    obtain ⟨lv, -, rfl⟩ := List.mem_map.1 hva
    by_cases hhacc : t.horizontalAccessors.isEmpty
    · have hnh : Dir.horizontal ∉ s := by
        intro hmem
        exact accessors_ne_nil t s Dir.horizontal hshape hmem
          (by simpa [TableDict.horizontalAccessors, TableDict.horizontalHeaders,
            List.isEmpty_iff] using hhacc)
      rw [if_pos hhacc] at hha
      rcases List.mem_singleton.1 hha with rfl
      exact walk_ok_no_horizontal s hnh t lv 0 0
    · rw [if_neg hhacc] at hha
      obtain ⟨lh, -, rfl⟩ := List.mem_map.1 hha
      exact walk_ok_some_some s t lv lh 0 0

theorem mapM_except_ok {α β : Type} (f : α → Except Unit β) :
    ∀ l : List α, (∀ a ∈ l, ∃ b, f a = .ok b) →
      ∃ ys, l.mapM f = .ok ys ∧ ys.length = l.length ∧
        ∀ i : Nat, ys.get? i = (l.get? i).bind (fun a => (f a).toOption) := by
  intro l
  induction l with
  | nil => exact fun _ => ⟨[], rfl, rfl, fun i => by cases i <;> rfl⟩
  | cons a rest ih =>
    intro hall
    obtain ⟨b, hb⟩ := hall a (List.mem_cons_self _ _)
    obtain ⟨ys, hys, hlen, hget⟩ := ih (fun x hx => hall x (List.mem_cons_of_mem _ hx))
    refine ⟨b :: ys, ?_, by simp [hlen], ?_⟩
    · rw [List.mapM_cons, hb, hys]
      rfl
    · intro i
      cases i with
      | zero => simp [hb, Except.toOption]
      | succ j => simpa using hget j

theorem mapM_option_some {α β : Type} (f : α → Option β) :
    ∀ l : List α, (∀ a ∈ l, ∃ b, f a = some b) →
      ∃ ys, l.mapM f = some ys ∧ ys.length = l.length ∧
        ∀ i : Nat, ys.get? i = (l.get? i).bind f := by
  intro l
  induction l with
  | nil => exact fun _ => ⟨[], rfl, rfl, fun i => by cases i <;> rfl⟩
  | cons a rest ih =>
    intro hall
    obtain ⟨b, hb⟩ := hall a (List.mem_cons_self _ _)
    obtain ⟨ys, hys, hlen, hget⟩ := ih (fun x hx => hall x (List.mem_cons_of_mem _ hx))
    refine ⟨b :: ys, ?_, by simp [hlen], ?_⟩
    · rw [List.mapM_cons, hb, hys]
      rfl
    · intro i
      cases i with
      | zero => simp [hb]
      | succ j => simpa using hget j

theorem flatMap_product_length {α β γ : Type} (f : α → β → γ) (ys : List β) :
    ∀ xs : List α, (xs.flatMap (fun a => ys.map (f a))).length = xs.length * ys.length := by
  intro xs
  induction xs with
  | nil => simp
  | cons x rest ih =>
    rw [List.flatMap_cons, List.length_append, List.length_map, ih, List.length_cons]
    ring

theorem flatMap_product_get {α β γ : Type} (f : α → β → γ) (ys : List β)
    (j : Nat) (hj : j < ys.length) :
    ∀ (xs : List α) (i : Nat), i < xs.length →
      (xs.flatMap (fun a => ys.map (f a))).get? (i * ys.length + j)
        = (xs.get? i).bind (fun a => (ys.get? j).map (f a)) := by
  intro xs
  induction xs with
  | nil => intro i hi; simp at hi
  | cons x rest ih =>
    intro i hi
    cases i with
    | zero =>
      rw [List.flatMap_cons]
      have h0 : 0 * ys.length + j = j := by omega
      rw [h0, List.get?_eq_getElem?,
        List.getElem?_append_left (by simpa using hj)]
      simp [List.get?_eq_getElem?, List.getElem?_map]
    | succ i' =>
      rw [List.flatMap_cons]
      have hidx : (i' + 1) * ys.length + j = (ys.map (f x)).length + (i' * ys.length + j) := by
        simp
        ring
      rw [hidx, List.get?_eq_getElem?,
        List.getElem?_append_right (by simp)]
      simp only [List.length_map]
      have hsub : ys.length + (i' * ys.length + j) - ys.length = i' * ys.length + j := by
        omega
      rw [hsub, ← List.get?_eq_getElem?]
      have hi' : i' < rest.length := by
        simp at hi
        omega
      rw [ih i' hi']
      simp

theorem vaList_length (t : TableDict) :
    t.vaList.length = max (Header.finalLength t.verticalHeaders) 1 := by
  have hacc : t.verticalAccessors.length = Header.finalLength t.verticalHeaders :=
    accessorsList_length _ []
  unfold TableDict.vaList
  by_cases h : t.verticalAccessors.isEmpty
  · rw [if_pos h]
    have : t.verticalAccessors = [] := by simpa [List.isEmpty_iff] using h
    rw [this] at hacc
    simp [← hacc]
  · rw [if_neg h]
    have hne : t.verticalAccessors ≠ [] := by simpa [List.isEmpty_iff] using h
    have hpos : 1 ≤ t.verticalAccessors.length := List.length_pos.mpr hne
    rw [List.length_map, hacc]
    omega

theorem haList_length (t : TableDict) :
    t.haList.length = max (Header.finalLength t.horizontalHeaders) 1 := by
  have hacc : t.horizontalAccessors.length = Header.finalLength t.horizontalHeaders :=
    accessorsList_length _ []
  unfold TableDict.haList
  by_cases h : t.horizontalAccessors.isEmpty
  · rw [if_pos h]
    have : t.horizontalAccessors = [] := by simpa [List.isEmpty_iff] using h
    rw [this] at hacc
    simp [← hacc]
  · rw [if_neg h]
    have hne : t.horizontalAccessors ≠ [] := by simpa [List.isEmpty_iff] using h
    have hpos : 1 ≤ t.horizontalAccessors.length := List.length_pos.mpr hne
    rw [List.length_map, hacc]
    omega

theorem dataCells_ok_spec (t : TableDict) (s : List Dir) (hshape : TDShape t s) :
    ∃ cells, dataCells t s = .ok cells ∧
      cells.length = t.vaList.length * t.haList.length ∧
      ∀ i j : Nat, ∀ va ha : Option (List String),
        t.vaList.get? i = some va → t.haList.get? j = some ha →
        ∃ cv, innerGenerator t s va ha = .ok cv ∧
          cells.get? (i * t.haList.length + j) = some cv := by
  have hallok : ∀ p ∈ t.vaList.flatMap (fun va => t.haList.map (fun ha => (va, ha))),
      ∃ r, innerGenerator t s p.1 p.2 = .ok r := by
    intro p hp
    rw [List.mem_flatMap] at hp
    obtain ⟨va, hva, hmem⟩ := hp
    obtain ⟨ha, hha, rfl⟩ := List.mem_map.1 hmem
    exact innerGenerator_ok t s hshape va hva ha hha
  obtain ⟨cells, hok, hlen, hget⟩ :=
    mapM_except_ok (fun p : Option (List String) × Option (List String) =>
      innerGenerator t s p.1 p.2) _ hallok
  refine ⟨cells, hok, ?_, ?_⟩
  · rw [hlen, flatMap_product_length]
  · intro i j va ha hva hha
    obtain ⟨r, hr⟩ := innerGenerator_ok t s hshape va (by
        exact List.get?_mem hva) ha (by exact List.get?_mem hha)
    refine ⟨r, hr, ?_⟩
    have hj : j < t.haList.length := by
      exact List.get?_eq_some.1 hha |>.choose
    have hi : i < t.vaList.length := by
      exact List.get?_eq_some.1 hva |>.choose
    rw [hget, flatMap_product_get _ _ j hj _ i hi, hva, hha]
    simp [hr, Except.toOption]

theorem build_implies_pos_depth (datadict : Raw) (d : Nat) (s : List Dir) (t : TableDict)
    (hwf : Raw.wf datadict d = true) (hbuild : buildTableDict datadict s = some t) :
    1 ≤ d := by
  cases d with
  | zero =>
    cases datadict with
    | int n =>
      rw [buildTableDict, applyStructure] at hbuild
      cases hbuild
    | node items => simp [Raw.wf] at hwf
  | succ m => omega

/-- C2.  For a table built from a well-formed `(data, structure)` input, the
resolved data sequence contains exactly
`max(final_length(column_headers), 1) * max(final_length(row_headers), 1)`
cells (absent placeholders included, and no uncaught exception), in
Cartesian-product order: the cell at position `i * |column paths| + j` is the
resolution of the `i`-th row-axis (vertical, outer loop) accessor against the
`j`-th column-axis (horizontal, inner loop) accessor. -/
theorem dataCells_count_and_order (datadict : Raw) (d : Nat) (s : List Dir) (t : TableDict)
    (hwf : Raw.wf datadict d = true) (hlen : s.length = d)
    (hbuild : buildTableDict datadict s = some t) :
    ∃ cells, dataCells t s = .ok cells ∧
      cells.length = max (Header.finalLength t.horizontalHeaders) 1
          * max (Header.finalLength t.verticalHeaders) 1 ∧
      ∀ i j : Nat, ∀ va ha : Option (List String),
        t.vaList.get? i = some va → t.haList.get? j = some ha →
        ∃ cv, innerGenerator t s va ha = .ok cv ∧
          cells.get? (i * t.haList.length + j) = some cv := by
  have hd := build_implies_pos_depth datadict d s t hwf hbuild
  have hshape := buildTableDict_wf datadict d s t hwf hlen hd hbuild
  obtain ⟨cells, hok, hclen, hcorr⟩ := dataCells_ok_spec t s hshape
  refine ⟨cells, hok, ?_, hcorr⟩
  rw [hclen, vaList_length, haList_length]
  ring

/-- Sample well-formed depth-1 input used by witnesses, and the table the
model builds from it with the all-vertical structure. -/
def sampleRaw1 : Raw := .node [("a", .int 1), ("b", .int 2)]

def sampleTD1 : TableDict := .node Dir.vertical [("a", .leaf 1), ("b", .leaf 2)]

/-- C2 witness: flat two-entry data with the vertical structure. -/
theorem dataCells_count_and_order_witness :
    Raw.wf sampleRaw1 1 = true ∧ ([Dir.vertical] : List Dir).length = 1 ∧
      buildTableDict sampleRaw1 [Dir.vertical] = some sampleTD1 ∧
      (∃ cells, dataCells sampleTD1 [Dir.vertical] = .ok cells ∧
        cells.length = max (Header.finalLength sampleTD1.horizontalHeaders) 1
            * max (Header.finalLength sampleTD1.verticalHeaders) 1 ∧
        ∀ i j : Nat, ∀ va ha : Option (List String),
          sampleTD1.vaList.get? i = some va → sampleTD1.haList.get? j = some ha →
          ∃ cv, innerGenerator sampleTD1 [Dir.vertical] va ha = .ok cv ∧
            cells.get? (i * sampleTD1.haList.length + j) = some cv) :=
  ⟨by decide, by decide, by rfl,
    dataCells_count_and_order sampleRaw1 1 [Dir.vertical] sampleTD1
      (by decide) (by decide) (by rfl)⟩

/-- C5.  For a table built from a well-formed `(data, structure)` input, cell
resolution never lets an error escape to the caller: the whole data sequence
resolves without an uncaught exception (missing keys, exhausted accessor paths
and non-scalar endpoints all degrade to the absent cell `None`), so
`generate_html` returns a string, and every absent cell is rendered as the
fixed non-empty placeholder glyph `-` rather than an empty string or a
failure. -/
theorem generateHtml_never_raises (datadict : Raw) (d : Nat) (s : List Dir) (t : TableDict)
    (hwf : Raw.wf datadict d = true) (hlen : s.length = d)
    (hbuild : buildTableDict datadict s = some t) :
    (∃ cells, dataCells t s = .ok cells) ∧
      (∃ html, generateHtml t s = .ok html) ∧
      cellTd none = "<td>" ++ "-" ++ "</td>" ∧ ("-" : String) ≠ "" := by
  have hd := build_implies_pos_depth datadict d s t hwf hbuild
  have hshape := buildTableDict_wf datadict d s t hwf hlen hd hbuild
  obtain ⟨cells, hok, -, -⟩ := dataCells_ok_spec t s hshape
  refine ⟨⟨cells, hok⟩, ⟨htmlAssemble t cells, ?_⟩, rfl, by decide⟩
  unfold generateHtml
  rw [hok]

/-- C5 witness: flat two-entry data with the vertical structure. -/
theorem generateHtml_never_raises_witness :
    Raw.wf sampleRaw1 1 = true ∧ ([Dir.vertical] : List Dir).length = 1 ∧
      buildTableDict sampleRaw1 [Dir.vertical] = some sampleTD1 ∧
      ((∃ cells, dataCells sampleTD1 [Dir.vertical] = .ok cells) ∧
        (∃ html, generateHtml sampleTD1 [Dir.vertical] = .ok html) ∧
        cellTd none = "<td>" ++ "-" ++ "</td>" ∧ ("-" : String) ≠ "") :=
  ⟨by decide, by decide, by rfl,
    generateHtml_never_raises sampleRaw1 1 [Dir.vertical] sampleTD1
      (by decide) (by decide) (by rfl)⟩

theorem maxDepth_of_wf :
    ∀ r : Raw, ∀ d : Nat, Raw.wf r d = true → Raw.maxDepth r = 2 * d := by
  have main :=
    Raw.rawInd
      (P := fun r => ∀ d, Raw.wf r d = true → Raw.maxDepth r = 2 * d)
      (Q := fun items => ∀ d, Raw.wfItems items d = true → items ≠ [] →
        Raw.listMax items = 2 * d + 1)
      (fun n d hwf => by
        simp [Raw.wf] at hwf
        simp [Raw.maxDepth, hwf])
      (fun items ih d hwf => by
        cases d with
        | zero => simp [Raw.wf] at hwf
        | succ k =>
          simp only [Raw.wf, Bool.and_eq_true, Bool.not_eq_true'] at hwf
          obtain ⟨⟨hne, -⟩, hwfi⟩ := hwf
          have hne' : items ≠ [] := by
            intro h
            rw [h] at hne
            simp at hne
          rw [Raw.maxDepth, ih k hwfi hne']
          omega)
      (fun d _ hne => absurd rfl hne)
      (fun k0 v0 rest pv prest d hwfi _ => by
        simp only [Raw.wfItems, Bool.and_eq_true] at hwfi
        obtain ⟨hwf0, hwfr⟩ := hwfi
        rw [Raw.listMax, pv d hwf0]
        cases rest with
        | nil =>
          rw [Raw.listMax]
          omega
        | cons q qrest =>
          rw [prest d hwfr (by simp)]
          omega)
  exact main

theorem headersDepth_of_wf (r : Raw) (d : Nat)
    (hwf : Raw.wf r d = true) (hd : 1 ≤ d) :
    Raw.headersDepth r = d := by
  cases r with
  | int n =>
    simp [Raw.wf] at hwf
    omega
  | node items =>
    have hmd := maxDepth_of_wf (.node items) d hwf
    have hne : ¬ items.isEmpty := by
      cases d with
      | zero => omega
      | succ k =>
        simp only [Raw.wf, Bool.and_eq_true, Bool.not_eq_true'] at hwf
        simp [hwf.1.1]
    rw [Raw.headersDepth]
    rw [if_neg (by simpa using hne), hmd]
    omega

theorem sortByKey_first_min (key : TableDict → Int) :
    ∀ l : List TableDict, l ≠ [] →
      ∃ t pre suf, (sortByKey key l).head? = some t ∧ l = pre ++ t :: suf ∧
        (∀ u ∈ pre, key t < key u) ∧ (∀ u ∈ suf, key t ≤ key u) := by
  intro l
  induction l with
  | nil => intro h; exact absurd rfl h
  | cons x xs ih =>
    intro _
    cases xs with
    | nil =>
      exact ⟨x, [], [], rfl, rfl,
        fun u hu => absurd hu (List.not_mem_nil u),
        fun u hu => absurd hu (List.not_mem_nil u)⟩
    | cons x2 xs2 =>
      obtain ⟨t', pre', suf', hhead, hdecomp, hpre, hsuf⟩ := ih (by simp)
      obtain ⟨rest, hrest⟩ : ∃ rest, sortByKey key (x2 :: xs2) = t' :: rest := by
        cases hs : sortByKey key (x2 :: xs2) with
        | nil => rw [hs] at hhead; cases hhead
        | cons a as =>
          rw [hs] at hhead
          simp at hhead
          exact ⟨as, by rw [hhead]⟩
      have hmin' : ∀ u ∈ x2 :: xs2, key t' ≤ key u := by
        intro u hu
        rw [hdecomp] at hu
        rcases List.mem_append.1 hu with h | h
        · exact le_of_lt (hpre u h)
        · rcases List.mem_cons.1 h with rfl | h2
          · exact le_refl _
          · exact hsuf u h2
      show ∃ t pre suf, (insertByKey key x (sortByKey key (x2 :: xs2))).head? = some t ∧ _
      rw [hrest, insertByKey]
      by_cases hle : key x ≤ key t'
      · rw [if_pos hle]
        refine ⟨x, [], x2 :: xs2, rfl, rfl,
          fun u hu => absurd hu (List.not_mem_nil u), ?_⟩
        intro u hu
        exact le_trans hle (hmin' u hu)
      · rw [if_neg hle]
        push_neg at hle
        refine ⟨t', x :: pre', suf', rfl, ?_, ?_, hsuf⟩
        · rw [hdecomp]
          rfl
        · intro u hu
          rcases List.mem_cons.1 hu with rfl | h2
          · exact hle
          · exact hpre u h2

/-- C1.  `build_optimal_table_dict(data)` returns, for well-formed input, the
table whose ugliness is minimal among the tables of all structures of
`get_all_structures(data)` (in their enumeration order, `tables` below), and
among equal-ugliness minima it returns the first-enumerated one: every table
strictly earlier in enumeration order is strictly uglier. -/
theorem buildOptimal_min_and_first (datadict : Raw) (d : Nat)
    (hd : 1 ≤ d) (hwf : Raw.wf datadict d = true) :
    ∃ tables pre t suf,
      (getAllStructures datadict).mapM (buildTableDict datadict) = some tables ∧
      tables.length = (getAllStructures datadict).length ∧
      (∀ i : Nat, tables.get? i
        = ((getAllStructures datadict).get? i).bind (buildTableDict datadict)) ∧
      buildOptimalTableDict datadict = some t ∧
      tables = pre ++ t :: suf ∧
      (∀ u ∈ tables, TableDict.getUgliness t ≤ TableDict.getUgliness u) ∧
      (∀ u ∈ pre, TableDict.getUgliness t < TableDict.getUgliness u) := by
  have hdepth := headersDepth_of_wf datadict d hwf hd
  have hall : ∀ s' ∈ getAllStructures datadict, ∃ tb, buildTableDict datadict s' = some tb := by
    intro s' hs'
    have hlen : s'.length = d := by
      unfold getAllStructures at hs'
      rw [hdepth] at hs'
      exact dirProduct_mem_length d s' hs'
    obtain ⟨tb, hsome, -⟩ :=
      applyStructure_wf datadict d 0 s' hwf (by omega) hd
    exact ⟨tb, hsome⟩
  obtain ⟨tables, hmapM, hlen, hget⟩ :=
    mapM_option_some (buildTableDict datadict) _ hall
  have htne : tables ≠ [] := by
    intro h
    rw [h] at hlen
    have : (getAllStructures datadict).length = 2 ^ d := by
      unfold getAllStructures
      rw [hdepth]
      exact dirProduct_length d
    rw [this] at hlen
    have := Nat.pos_pow_of_pos d (by omega : 0 < 2)
    simp at hlen
    omega
  obtain ⟨t, pre, suf, hhead, hdecomp, hpre, hsuf⟩ :=
    sortByKey_first_min TableDict.getUgliness tables htne
  refine ⟨tables, pre, t, suf, hmapM, hlen, hget, ?_, hdecomp, ?_, hpre⟩
  · unfold buildOptimalTableDict
    rw [hmapM]
    exact hhead
  · intro u hu
    rw [hdecomp] at hu
    rcases List.mem_append.1 hu with h | h
    · exact le_of_lt (hpre u h)
    · rcases List.mem_cons.1 h with rfl | h2
      · exact le_refl _
      · exact hsuf u h2

/-- C1 witness: flat two-entry data. -/
theorem buildOptimal_min_and_first_witness :
    (1 : Nat) ≤ 1 ∧ Raw.wf sampleRaw1 1 = true ∧
      (∃ tables pre t suf,
        (getAllStructures sampleRaw1).mapM (buildTableDict sampleRaw1) = some tables ∧
        tables.length = (getAllStructures sampleRaw1).length ∧
        (∀ i : Nat, tables.get? i
          = ((getAllStructures sampleRaw1).get? i).bind (buildTableDict sampleRaw1)) ∧
        buildOptimalTableDict sampleRaw1 = some t ∧
        tables = pre ++ t :: suf ∧
        (∀ u ∈ tables, TableDict.getUgliness t ≤ TableDict.getUgliness u) ∧
        (∀ u ∈ pre, TableDict.getUgliness t < TableDict.getUgliness u)) :=
  ⟨by decide, by decide, buildOptimal_min_and_first sampleRaw1 1 (by decide) (by decide)⟩

theorem string_ne_of_prefix_char (p1 p2 : String) (i : Nat) (c1 c2 : Char)
    (h1 : p1.data.get? i = some c1) (h2 : p2.data.get? i = some c2) (hne : c1 ≠ c2) :
    ∀ r1 r2 : String, p1 ++ r1 ≠ p2 ++ r2 := by
  intro r1 r2 heq
  have hdata := congrArg String.data heq
  rw [String.data_append, String.data_append] at hdata
  have hi1 : i < p1.data.length := by
    rcases List.get?_eq_some.1 h1 with ⟨hlt, -⟩
    exact hlt
  have hi2 : i < p2.data.length := by
    rcases List.get?_eq_some.1 h2 with ⟨hlt, -⟩
    exact hlt
  have e1 : (p1.data ++ r1.data).get? i = some c1 := by
    rw [List.get?_eq_getElem?, List.getElem?_append_left hi1, ← List.get?_eq_getElem?]
    exact h1
  have e2 : (p2.data ++ r2.data).get? i = some c2 := by
    rw [List.get?_eq_getElem?, List.getElem?_append_left hi2, ← List.get?_eq_getElem?]
    exact h2
  rw [hdata] at e1
  rw [e2] at e1
  injection e1 with hval
  exact hne hval.symm

theorem vIter_head_zero (maxd : Nat) (h0 : Header) (rest : List Header) :
    ∃ hd props isLeaf tail,
      vIter maxd (h0 :: rest) 0 = (hd, 0, props, isLeaf) :: tail := by
  cases h0 with
  | leaf k =>
    exact ⟨k, _, true, _, rfl⟩
  | group k g =>
    exact ⟨k, _, false, _, rfl⟩

theorem vRows_break_head (data : List (Option Int)) (hl : Nat) (hd : String)
    (props : List (String × Nat)) (isLeaf : Bool) (tail : List HeaderItem) :
    ∃ z, vRows data hl ((hd, 0, props, isLeaf) :: tail) 0 0 = "</tr><tr>" ++ z := by
  rw [vRows]
  simp only [Nat.le_refl, if_pos, decide_True]
  exact ⟨_, by rw [String.append_assoc, String.append_assoc]⟩

theorem hIter_head_zero (maxd : Nat) (h0 : Header) (rest : List Header) :
    ∃ hd props isLeaf tail,
      hIter maxd (h0 :: rest) 0 = (hd, 0, props, isLeaf) :: tail := by
  rw [hIter]
  cases h0 with
  | leaf k => exact ⟨k, _, true, _, rfl⟩
  | group k g => exact ⟨k, _, false, _, rfl⟩

theorem hRows_th_head (hd : String) (props : List (String × Nat)) (isLeaf : Bool)
    (tail : List HeaderItem) :
    ∃ z, hRows ((hd, 0, props, isLeaf) :: tail) 0 = "<th " ++ z := by
  rw [hRows]
  simp only [ne_eq, not_true_eq_false, if_neg, not_false_eq_true]
  refine ⟨(String.intercalate " " (props.map (fun p => p.1 ++ "=\"" ++ toString p.2 ++ "\"")))
      ++ ">" ++ hd ++ "</" ++ "th" ++ ">" ++ hRows tail 0, ?_⟩
  show "" ++ buildTag "th" props hd ++ hRows tail 0 = _
  unfold buildTag
  rw [String.empty_append]
  have hlit : ("<" ++ "th" ++ " " : String) = "<th " := by decide
  rw [← hlit]
  simp only [String.append_assoc]

theorem strGet_append_left (a b : String) (i : Nat) (c : Char)
    (h : a.data.get? i = some c) : (a ++ b).data.get? i = some c := by
  rw [String.data_append]
  have hi : i < a.data.length := by
    rcases List.get?_eq_some.1 h with ⟨hlt, -⟩
    exact hlt
  rw [List.get?_eq_getElem?, List.getElem?_append_left hi, ← List.get?_eq_getElem?]
  exact h

theorem strGet_append_right (a b : String) (i : Nat) (c : Char)
    (hge : a.data.length ≤ i) (h : b.data.get? (i - a.data.length) = some c) :
    (a ++ b).data.get? i = some c := by
  rw [String.data_append]
  rw [List.get?_eq_getElem?, List.getElem?_append_right hge, ← List.get?_eq_getElem?]
  exact h

theorem string_ne_of_data_get (a b : String) (i : Nat) (c1 c2 : Char)
    (h1 : a.data.get? i = some c1) (h2 : b.data.get? i = some c2) (hne : c1 ≠ c2) :
    a ≠ b := by
  intro heq
  rw [heq, h2] at h1
  injection h1 with hv
  exact hne hv.symm

theorem corner_prefix_char8 (dv dh : Nat) (rest : String) :
    ("<table><tr>" ++ cornerCell dv dh ++ rest).data.get? 8 = some 't' := by
  apply strGet_append_left
  apply strGet_append_left
  decide

theorem corner_prefix_char13 (dv dh : Nat) (rest : String) :
    ("<table><tr>" ++ cornerCell dv dh ++ rest).data.get? 13 = some 'd' := by
  apply strGet_append_left
  apply strGet_append_right _ _ 13 _ (by decide)
  show (cornerCell dv dh).data.get? 2 = some 'd'
  unfold cornerCell
  apply strGet_append_left
  apply strGet_append_left
  apply strGet_append_left
  apply strGet_append_left
  decide

/-- C8.  `generate_html` emits the empty top-left corner cell if and only if
both the horizontal and the vertical header lists are non-empty; the corner
cell spans `colspan = _get_headers_depth(vertical headers)` columns and
`rowspan = _get_headers_depth(horizontal headers)` rows, and it appears
immediately after the opening `<table><tr>`. -/
theorem generateHtml_corner_iff (t : TableDict) (s : List Dir) (html : String)
    (hok : generateHtml t s = .ok html) :
    ((¬ t.horizontalHeaders.isEmpty ∧ ¬ t.verticalHeaders.isEmpty) ↔
      ∃ rest, html = "<table><tr>"
        ++ cornerCell (Header.headersDepth t.verticalHeaders)
            (Header.headersDepth t.horizontalHeaders) ++ rest) := by
  obtain ⟨cells, hcells, rfl⟩ : ∃ cells, dataCells t s = .ok cells ∧
      html = htmlAssemble t cells := by
    unfold generateHtml at hok
    cases hc : dataCells t s with
    | error e => rw [hc] at hok; cases hok
    | ok data =>
      rw [hc] at hok
      injection hok with h
      exact ⟨data, rfl, h.symm⟩
  by_cases hhh : t.horizontalHeaders.isEmpty
  · constructor
    · rintro ⟨hc, -⟩
      exact absurd hhh hc
    · rintro ⟨rest, heq⟩
      unfold htmlAssemble at heq
      rw [if_pos hhh] at heq
      by_cases hvv : t.verticalHeaders.isEmpty
      · rw [if_pos hvv] at heq
        refine absurd heq (string_ne_of_data_get _ _ 8 '/' 't' ?_
          (corner_prefix_char8 _ _ rest) (by decide))
        apply strGet_append_left
        apply strGet_append_right _ _ 8 _ (by decide)
        show (("</tr><tr>"
            ++ displayData cells
                (if Header.finalLength t.horizontalHeaders = 0 then 1
                 else Header.finalLength t.horizontalHeaders) 0
            ++ "</tr>")).data.get? 1 = some '/'
        apply strGet_append_left
        apply strGet_append_left
        decide
      · rw [if_neg hvv] at heq
        cases hvl : t.verticalHeaders with
        | nil =>
          rw [hvl] at hvv
          simp at hvv
        | cons v0 vr =>
          rw [hvl] at heq
          obtain ⟨hd, props, isLeaf, tail, hvi⟩ :=
            vIter_head_zero (Header.headersDepth (v0 :: vr)) v0 vr
          rw [hvi] at heq
          obtain ⟨z, hz⟩ := vRows_break_head cells
            (if Header.finalLength t.horizontalHeaders = 0 then 1
             else Header.finalLength t.horizontalHeaders) hd props isLeaf tail
          rw [hz] at heq
          refine absurd heq (string_ne_of_data_get _ _ 8 '/' 't' ?_
            (corner_prefix_char8 _ _ rest) (by decide))
          apply strGet_append_left
          apply strGet_append_right _ _ 8 _ (by decide)
          show ("</tr><tr>" ++ z).data.get? 1 = some '/'
          apply strGet_append_left
          decide
  · by_cases hvv : t.verticalHeaders.isEmpty
    · constructor
      · rintro ⟨-, hc⟩
        exact absurd hvv hc
      · rintro ⟨rest, heq⟩
        unfold htmlAssemble at heq
        rw [if_neg hhh, if_pos hvv, if_pos hvv] at heq
        cases hhl : t.horizontalHeaders with
        | nil =>
          rw [hhl] at hhh
          simp at hhh
        | cons h0 hr =>
          rw [hhl] at heq
          obtain ⟨hd, props, isLeaf, tail, hhi⟩ :=
            hIter_head_zero (Header.headersDepth (h0 :: hr)) h0 hr
          rw [hhi] at heq
          obtain ⟨z, hz⟩ := hRows_th_head hd props isLeaf tail
          rw [hz] at heq
          refine absurd heq (string_ne_of_data_get _ _ 13 'h' 'd' ?_
            (corner_prefix_char13 _ _ rest) (by decide))
          apply strGet_append_left
          apply strGet_append_left
          apply strGet_append_right _ _ 13 _ (by decide)
          show (("<tr>" ++ "") ++ ("<th " ++ z)).data.get? 6 = some 'h'
          apply strGet_append_right _ _ 6 _ (by decide)
          show ("<th " ++ z).data.get? 2 = some 'h'
          apply strGet_append_left
          decide
    · constructor
      · rintro -
        refine ⟨hRows (hIter (Header.headersDepth t.horizontalHeaders)
              t.horizontalHeaders 0) 0
            ++ ((vRows cells
                (if Header.finalLength t.horizontalHeaders = 0 then 1
                 else Header.finalLength t.horizontalHeaders)
                (vIter (Header.headersDepth t.verticalHeaders)
                  t.verticalHeaders 0) 0 0)
              ++ "</table>"), ?_⟩
        unfold htmlAssemble
        rw [if_neg hhh, if_neg hvv, if_neg hvv]
        rw [show ("<table><tr>" : String) = "<table>" ++ "<tr>" from by decide]
        simp only [String.append_assoc]
      · rintro -
        exact ⟨hhh, hvv⟩

/-- C8 witness: an all-vertical one-level table has no horizontal headers, so
no corner cell is emitted in its rendered output. -/
theorem generateHtml_corner_iff_witness :
    generateHtml sampleTD1 [Dir.vertical]
        = .ok ("<table></tr><tr><th colspan=\"1\">a</th><td>1</td></tr><tr><th colspan=\"1\">b</th><td>2</td></table>") ∧
      ((¬ sampleTD1.horizontalHeaders.isEmpty ∧ ¬ sampleTD1.verticalHeaders.isEmpty) ↔
        ∃ rest, ("<table></tr><tr><th colspan=\"1\">a</th><td>1</td></tr><tr><th colspan=\"1\">b</th><td>2</td></table>" : String)
          = "<table><tr>"
            ++ cornerCell (Header.headersDepth sampleTD1.verticalHeaders)
                (Header.headersDepth sampleTD1.horizontalHeaders) ++ rest) :=
  ⟨by rfl, generateHtml_corner_iff sampleTD1 [Dir.vertical] _ (by rfl)⟩
